import Mathlib

/-!
Verification development for `extract_from_folder.py` (Automatic-Audio-Extractor).

The program probes video files with ffprobe, parses the human-readable probe
text with the regular expression

  `AUDIO_STREAM_RE = re.compile(r"Stream #(\d:\d)\(([a-zA-Z]+)\): Audio")`

and selects the Japanese audio track (`get_japanese_audio_track`), then derives
an output path and builds an ffmpeg command (`extract_audio`), over the files
of a folder filtered by extension (`main`).

We embed the probe text as `List Char`.  Python `re.findall` is embedded as a
left-to-right scan producing non-overlapping matches: at each position we try
to match the pattern; on success we emit the capture groups and continue after
the end of the match, on failure we advance one character.  The scan is written
with an explicit fuel argument (the length of the remaining text always bounds
the work, see `findAllAux_congr`) so that every definition is executable by the
kernel.  Python `str.lower` is modelled for ASCII, which is exact on every
string the regular expression can capture (`[a-zA-Z]+`).  The external
subprocess calls are outside the model: the Stream Selector is treated as the
pure function from probe text to result that the spec names
`select_japanese_track`, and `extract_audio` is modelled as the pure part of
the per-file task: the notices it prints and the ffmpeg invocation it builds,
with the probe text passed as an argument in place of the ffprobe call.
-/

namespace ExtractFromFolder

/-- ASCII digit test, embedding the regex class `\d` on the probe text
(the probe text the program reads is the `str` of a bytes object, hence
ASCII). -/
def isAsciiDigit (c : Char) : Bool := '0' ≤ c && c ≤ '9'

/-- ASCII letter test, embedding the regex class `[a-zA-Z]`. -/
def isAsciiAlpha (c : Char) : Bool :=
  ('a' ≤ c && c ≤ 'z') || ('A' ≤ c && c ≤ 'Z')

/-- Python `str.lower` on one character, modelled for ASCII. -/
def lowerChar (c : Char) : Char :=
  if 'A' ≤ c && c ≤ 'Z' then Char.ofNat (c.toNat + 32) else c

/-- Python `str.lower`, modelled for ASCII (exact on the `[a-zA-Z]+` captures
that the selection logic lowercases). -/
def pyLower (l : List Char) : List Char := l.map lowerChar

/-- The language tag the selector compares against: `"jpn"`. -/
def jpnTag : List Char := "jpn".data

/-- Match a literal character sequence at the head of the text, returning the
remainder on success. -/
def dropLit : List Char → List Char → Option (List Char)
  | [], l => some l
  | _ :: _, [] => none
  | p :: ps, c :: cs => if c = p then dropLit ps cs else none

/-- Try to match `AUDIO_STREAM_RE`, the pattern
`Stream #(\d:\d)\(([a-zA-Z]+)\): Audio`, at the start of the text.  On success
returns the two capture groups (the index label `\d:\d` and the language tag
`[a-zA-Z]+`) and the text after the match. -/
def matchAt (l : List Char) : Option (List Char × List Char × List Char) :=
  match dropLit ("Stream #".data) l with
  | none => none
  | some l₁ =>
    match l₁ with
    | d₁ :: ':' :: d₂ :: '(' :: l₂ =>
      if isAsciiDigit d₁ && isAsciiDigit d₂ then
        if l₂.takeWhile isAsciiAlpha = [] then none
        else
          match dropLit ("): Audio".data) (l₂.dropWhile isAsciiAlpha) with
          | some rest => some ([d₁, ':', d₂], l₂.takeWhile isAsciiAlpha, rest)
          | none => none
      else none
    | _ => none

/-- Fuelled scan embedding `AUDIO_STREAM_RE.findall`: at each position try the
pattern; on a match emit the capture-group pair and continue after the match,
otherwise advance one character.  The fuel only needs to bound the length of
the text (see `findAllAux_congr`). -/
def findAllAux : Nat → List Char → List (List Char × List Char)
  | 0, _ => []
  | _ + 1, [] => []
  | fuel + 1, c :: cs =>
    match matchAt (c :: cs) with
    | some (index, language, rest) => (index, language) :: findAllAux fuel rest
    | none => findAllAux fuel cs

/-- Embedding of `AUDIO_STREAM_RE.findall(text)`: the ordered list of
(index label, language tag) pairs, one per match, in document order. -/
def findAll (l : List Char) : List (List Char × List Char) := findAllAux l.length l

/-- The ordered sequence of parsed audio stream descriptors of a probe text:
`streams = AUDIO_STREAM_RE.findall(str(output.stderr))` in
`get_japanese_audio_track` (line 60). -/
def streams (probe : String) : List (List Char × List Char) := findAll probe.data

/-- The exception class of the script (line 37). -/
inductive JapaneseNotFoundException : Type where
  | mk : JapaneseNotFoundException
deriving DecidableEq

/-- The scan loop of `get_japanese_audio_track` (lines 70-74): return the index
of the first stream whose language code lowercases to `"jpn"`, else raise. -/
def findJpnLoop : List (List Char × List Char) → Except JapaneseNotFoundException (List Char)
  | [] => .error JapaneseNotFoundException.mk
  | (index, language) :: rest =>
    if pyLower language = jpnTag then .ok index else findJpnLoop rest

/-- The selection logic of `get_japanese_audio_track` (lines 60-74) as the pure
function from probe text to result that the spec names
`select_japanese_track`: zero parsed streams raises, exactly one parsed stream
returns its index unconditionally, otherwise the first `"jpn"`-tagged stream is
returned or the exception is raised. -/
def select_japanese_track (probe : String) :
    Except JapaneseNotFoundException (List Char) :=
  match streams probe with
  | [] => .error JapaneseNotFoundException.mk
  | [(index, _)] => .ok index
  | st => findJpnLoop st

/-- Spec-level audio stream descriptor matcher.  Modelled from the spec: the
data model (spec section 3) defines a Stream Descriptor as a pair of index
label and language code where the language code may be absent, but the
implementation has no notion of a tag-absent descriptor (its pattern requires
`(lang)`).  This matcher recognises, in addition to the implementation
pattern, the tag-absent line shape `Stream #N:M: Audio` that ffprobe emits for
streams without language metadata, yielding a `none` language code.  It exists
only to state claims that speak about descriptors with no language tag. -/
def matchAtSpec (l : List Char) :
    Option (List Char × Option (List Char) × List Char) :=
  match matchAt l with
  | some (index, language, rest) => some (index, some language, rest)
  | none =>
    match dropLit ("Stream #".data) l with
    | none => none
    | some l₁ =>
      match l₁ with
      | d₁ :: ':' :: d₂ :: l₂ =>
        if isAsciiDigit d₁ && isAsciiDigit d₂ then
          match dropLit (": Audio".data) l₂ with
          | some rest => some ([d₁, ':', d₂], none, rest)
          | none => none
        else none
      | _ => none

/-- Fuelled scan collecting spec-level stream descriptors in document order
(tagged and tag-absent), companion of `findAllAux`. -/
def specFindAllAux : Nat → List Char → List (List Char × Option (List Char))
  | 0, _ => []
  | _ + 1, [] => []
  | fuel + 1, c :: cs =>
    match matchAtSpec (c :: cs) with
    | some (index, language, rest) => (index, language) :: specFindAllAux fuel rest
    | none => specFindAllAux fuel cs

/-- Spec-level descriptor sequence of a probe text: every audio stream line in
document order, with `none` for an absent language tag.  Modelled from the
spec (sections 3 and 4.1); used to state the claims about descriptors with no
language tag, which the implementation parse cannot represent. -/
def specStreamDescriptors (probe : String) :
    List (List Char × Option (List Char)) :=
  specFindAllAux probe.data.length probe.data

/-- The shape of text that one `AUDIO_STREAM_RE` match covers:
`Stream #<index>(<language>): Audio`. -/
def streamLine (index language : List Char) : List Char :=
  "Stream #".data ++ (index ++ ('(' :: (language ++ "): Audio".data)))

/-- A filesystem path, as the script uses it: a parent directory and a final
component.  `pathlib.Path.parent` is the `dir` field and `parent / name`
rebuilds a path with the same `dir`. -/
structure VPath : Type where
  dir : List Char
  name : List Char
deriving DecidableEq

/-- Python `str.rfind(".")` on a filename, as `Option Nat`: the index of the
last `.`, or `none` when there is none (Python returns `-1`). -/
def rfindDot : List Char → Option Nat
  | [] => none
  | c :: cs =>
    match rfindDot cs with
    | some i => some (i + 1)
    | none => if c = '.' then some 0 else none

/-- `pathlib.PurePath.stem`: the final component without its suffix.  CPython
computes `i = name.rfind('.')` and returns `name[:i]` when `0 < i < len(name)
- 1`, else `name` unchanged. -/
def pyStem (name : List Char) : List Char :=
  match rfindDot name with
  | none => name
  | some i => if 0 < i ∧ i < name.length - 1 then name.take i else name

/-- `pathlib.PurePath.suffix`: the extension of the final component.  CPython
computes `i = name.rfind('.')` and returns `name[i:]` when `0 < i < len(name)
- 1`, else the empty string. -/
def pySuffix (name : List Char) : List Char :=
  match rfindDot name with
  | none => []
  | some i => if 0 < i ∧ i < name.length - 1 then name.drop i else []

/-- The output path computed by `extract_audio` (line 90):
`video_file.parent / (video_file.stem + ".mp3")`. -/
def output_filename (video_file : VPath) : VPath :=
  { dir := video_file.dir, name := pyStem video_file.name ++ ".mp3".data }

/-- `str(video_file)`: the rendered path, used only inside a printed notice. -/
def pathStr (p : VPath) : List Char := p.dir ++ ('/' :: p.name)

/-- The ffmpeg invocation `extract_audio` builds (line 92):
`ffmpeg -i "<input>" -q:a 0 -map <track> "<output>"`, modelled structurally by
its three varying arguments. -/
structure FfmpegCmd : Type where
  input : VPath
  track : List Char
  output : VPath
deriving DecidableEq

/-- The pure part of the per-file task `extract_audio` (lines 77-95), with the
ffprobe output supplied as the `probe` argument: the list of notices it prints
and the ffmpeg command it runs, if any.  The `except JapaneseNotFoundException`
branch prints one skip notice and returns without a command; the success
branch prints one extraction notice and builds the command.  The function is
total: no exception escapes to the caller. -/
def extract_audio (probe : String) (video_file : VPath) :
    List (List Char) × Option FfmpegCmd :=
  match select_japanese_track probe with
  | .error _ => (["No Japanese audio track found.".data], none)
  | .ok track_index =>
    (["Extracting audio from ".data ++ (pathStr video_file ++ ['\n'])],
     some { input := video_file, track := track_index,
            output := output_filename video_file })

/-- A directory entry as `main` inspects it: its final-component name and
whether `is_file()` holds. -/
structure DirEntry : Type where
  name : List Char
  isFile : Bool
deriving DecidableEq

/-- `VIDEO_EXTS = (".mkv", ".mp4")` (line 33). -/
def VIDEO_EXTS : List (List Char) := [".mkv".data, ".mp4".data]

/-- The file filter of `main` (lines 102-106) over the immediate entries of the
folder: keep entries with `is_file()` and `suffix.lower() in VIDEO_EXTS`. -/
def video_files (entries : List DirEntry) : List DirEntry :=
  entries.filter fun e => e.isFile && decide (pyLower (pySuffix e.name) ∈ VIDEO_EXTS)

/-- Concrete probe text: one tagged audio stream. -/
def probeOneEng : String := "Stream #0:1(eng): Audio: aac (LC), 48000 Hz"

/-- Concrete probe text: an eng stream then a jpn stream. -/
def probeEngJpn : String := "Stream #0:1(eng): Audio\nStream #0:2(jpn): Audio"

/-- Concrete probe text: two jpn streams. -/
def probeTwoJpn : String := "Stream #0:1(jpn): Audio\nStream #0:2(jpn): Audio"

/-- Concrete probe text: two eng streams and no jpn stream. -/
def probeTwoEng : String := "Stream #0:1(eng): Audio\nStream #0:2(eng): Audio"

/-- Concrete probe text: a single audio stream line with no language tag. -/
def probeUntagged : String := "Stream #0:1: Audio: aac (LC), 48000 Hz"

/-- Concrete probe text: an untagged audio stream line then an eng stream. -/
def probeUntaggedEng : String := "Stream #0:1: Audio\nStream #0:2(eng): Audio"

/-- Concrete probe text: a single jpn stream. -/
def probeJpnOnly : String := "Stream #0:2(jpn): Audio"

/-- Concrete probe text: an eng stream then a jpn stream, second container. -/
def probeEngJpn2 : String := "Stream #1:1(eng): Audio\nStream #1:2(jpn): Audio"

/-! Supporting lemmas. -/

/-- A successful literal match decomposes the text. -/
theorem dropLit_some : ∀ pre l r, dropLit pre l = some r → l = pre ++ r := by
  intro pre
  induction pre with
  | nil =>
    intro l r h
    simp only [dropLit, Option.some.injEq] at h
    simp [h]
  | cons p ps ih =>
    intro l r h
    match l with
    | [] => simp [dropLit] at h
    | c :: cs =>
      simp only [dropLit] at h
      split at h
      · next hc =>
        subst hc
        simpa using ih cs r h
      · exact absurd h (by simp)

/-- A successful `AUDIO_STREAM_RE` match at the head of the text decomposes the
text as the matched stream line followed by the remainder. -/
theorem matchAt_some : ∀ {l index language rest},
    matchAt l = some (index, language, rest) →
    l = streamLine index language ++ rest := by
  intro l index language rest h
  unfold matchAt at h
  split at h
  · exact absurd h (by simp)
  · rename_i l₁ heq0
    have hl : l = "Stream #".data ++ l₁ := dropLit_some _ _ _ heq0
    split at h
    · rename_i d₁ d₂ l₂
      split at h
      · split at h
        · exact absurd h (by simp)
        · split at h
          · rename_i rest' heq2
            have hdw : l₂.dropWhile isAsciiAlpha = "): Audio".data ++ rest' :=
              dropLit_some _ _ _ heq2
            have htk : l₂.takeWhile isAsciiAlpha ++ l₂.dropWhile isAsciiAlpha = l₂ :=
              List.takeWhile_append_dropWhile isAsciiAlpha l₂
            have hsplit : l₂ = l₂.takeWhile isAsciiAlpha ++ ("): Audio".data ++ rest') := by
              rw [← hdw]; exact htk.symm
            simp only [Option.some.injEq, Prod.mk.injEq] at h
            obtain ⟨hidx, hlang, hrest⟩ := h
            subst hidx hlang hrest
            rw [hl]
            conv_lhs => rw [hsplit]
            simp [streamLine]
          · exact absurd h (by simp)
      · exact absurd h (by simp)
    · exact absurd h (by simp)

/-- A match always consumes at least one character. -/
theorem matchAt_rest_lt {l index language rest}
    (h : matchAt l = some (index, language, rest)) : rest.length < l.length := by
  have hd := matchAt_some h
  rw [hd]
  simp [streamLine]
  omega

/-- The fuel of the scan is irrelevant as soon as it bounds the length of the
text; in particular `findAll`, which starts with fuel equal to the length,
never runs out. -/
theorem findAllAux_congr : ∀ f g l, l.length ≤ f → l.length ≤ g →
    findAllAux f l = findAllAux g l := by
  intro f
  induction f with
  | zero =>
    intro g l hf _
    have : l = [] := List.eq_nil_of_length_eq_zero (Nat.le_zero.mp hf)
    subst this
    cases g <;> simp [findAllAux]
  | succ f ih =>
    intro g l hf hg
    match l with
    | [] => cases g <;> simp [findAllAux]
    | c :: cs =>
      match g with
      | 0 => simp at hg
      | g + 1 =>
        cases hm : matchAt (c :: cs) with
        | some trip =>
          obtain ⟨index, language, rest⟩ := trip
          have hlt := matchAt_rest_lt hm
          simp only [List.length_cons] at hf hg hlt
          simp only [findAllAux, hm]
          rw [ih g rest (by omega) (by omega)]
        | none =>
          simp only [List.length_cons] at hf hg
          simp only [findAllAux, hm]
          exact ih g cs (by omega) (by omega)

/-- Every pair the scan emits comes from an occurrence of the corresponding
stream line in the text. -/
theorem findAllAux_mem_decomp : ∀ fuel l index language,
    (index, language) ∈ findAllAux fuel l →
    ∃ pre suf, l = pre ++ streamLine index language ++ suf := by
  intro fuel
  induction fuel with
  | zero => intro l index language h; simp [findAllAux] at h
  | succ fuel ih =>
    intro l index language h
    match l with
    | [] => simp [findAllAux] at h
    | c :: cs =>
      cases hm : matchAt (c :: cs) with
      | some trip =>
        obtain ⟨i, g, rest⟩ := trip
        simp only [findAllAux, hm] at h
        rcases List.mem_cons.mp h with heq | htail
        · have hpair : index = i ∧ language = g := by simpa using heq
          obtain ⟨rfl, rfl⟩ := hpair
          exact ⟨[], rest, by simpa using matchAt_some hm⟩
        · obtain ⟨pre, suf, hd⟩ := ih rest index language htail
          refine ⟨streamLine i g ++ pre, suf, ?_⟩
          rw [matchAt_some hm, hd]
          simp
      | none =>
        simp only [findAllAux, hm] at h
        obtain ⟨pre, suf, hd⟩ := ih cs index language h
        exact ⟨c :: pre, suf, by rw [hd]; simp⟩

/-- The scan loop returns the index of the head immediately when the head is
tagged `jpn`. -/
theorem findJpnLoop_hit (index language : List Char)
    (rest : List (List Char × List Char)) (h : pyLower language = jpnTag) :
    findJpnLoop ((index, language) :: rest) = .ok index := by
  simp [findJpnLoop, h]

/-- The scan loop passes over a block of streams none of which is tagged
`jpn`. -/
theorem findJpnLoop_skip : ∀ l₁ l₂, (∀ x ∈ l₁, pyLower x.2 ≠ jpnTag) →
    findJpnLoop (l₁ ++ l₂) = findJpnLoop l₂ := by
  intro l₁
  induction l₁ with
  | nil => intro l₂ _; rfl
  | cons x l₁ ih =>
    intro l₂ hx
    obtain ⟨index, language⟩ := x
    have h₁ : pyLower language ≠ jpnTag := hx _ (List.mem_cons_self ..)
    simp only [List.cons_append, findJpnLoop, if_neg h₁]
    exact ih l₂ fun y hy => hx y (List.mem_cons_of_mem _ hy)

/-- The scan loop raises exactly when no stream in the list is tagged
`jpn`. -/
theorem findJpnLoop_error_iff : ∀ l,
    findJpnLoop l = .error JapaneseNotFoundException.mk ↔
      ∀ x ∈ l, pyLower x.2 ≠ jpnTag := by
  intro l
  induction l with
  | nil => simp [findJpnLoop]
  | cons x l ih =>
    obtain ⟨index, language⟩ := x
    by_cases hj : pyLower language = jpnTag
    · simp [findJpnLoop, hj]
    · simp only [findJpnLoop, if_neg hj, ih, List.mem_cons]
      constructor
      · rintro hall y (rfl | hy)
        · exact hj
        · exact hall y hy
      · intro hall y hy
        exact hall y (Or.inr hy)

/-- A successful scan loop returns the index of some `jpn`-tagged member. -/
theorem findJpnLoop_ok_mem : ∀ l index, findJpnLoop l = .ok index →
    ∃ language, (index, language) ∈ l ∧ pyLower language = jpnTag := by
  intro l
  induction l with
  | nil => intro index h; simp [findJpnLoop] at h
  | cons x l ih =>
    intro index h
    obtain ⟨i, g⟩ := x
    by_cases hj : pyLower g = jpnTag
    · simp only [findJpnLoop, if_pos hj, Except.ok.injEq] at h
      exact ⟨g, by simp [h], hj⟩
    · simp only [findJpnLoop, if_neg hj] at h
      obtain ⟨language, hm, hl⟩ := ih index h
      exact ⟨language, List.mem_cons_of_mem _ hm, hl⟩

/-- Selection on an empty parsed stream list raises (lines 63-64). -/
theorem select_of_streams_nil (p : String) (h : streams p = []) :
    select_japanese_track p = .error JapaneseNotFoundException.mk := by
  unfold select_japanese_track
  rw [h]

/-- Selection on a singleton parsed stream list returns its index label
unconditionally (lines 66-67). -/
theorem select_of_streams_single (p : String) (index language : List Char)
    (h : streams p = [(index, language)]) : select_japanese_track p = .ok index := by
  unfold select_japanese_track
  rw [h]

/-- Selection on a parsed stream list with at least two entries runs the scan
loop (lines 70-74). -/
theorem select_of_streams_multi (p : String) (a b : List Char × List Char)
    (t : List (List Char × List Char)) (h : streams p = a :: b :: t) :
    select_japanese_track p = findJpnLoop (a :: b :: t) := by
  unfold select_japanese_track
  rw [h]

/-- Packaging of `select_of_streams_multi` through a length hypothesis. -/
theorem select_loop_of_len (p : String) (h : 2 ≤ (streams p).length) :
    select_japanese_track p = findJpnLoop (streams p) := by
  rcases hs : streams p with _ | ⟨a, _ | ⟨b, t⟩⟩
  · rw [hs] at h; simp at h
  · rw [hs] at h; simp at h
  · exact select_of_streams_multi p a b t hs

/-- A successful selection returns the index label of some parsed stream. -/
theorem select_ok_mem (p : String) (index : List Char)
    (h : select_japanese_track p = .ok index) :
    ∃ language, (index, language) ∈ streams p := by
  rcases hs : streams p with _ | ⟨a, _ | ⟨b, t⟩⟩
  · rw [select_of_streams_nil p hs] at h; exact absurd h (by simp)
  · obtain ⟨i, g⟩ := a
    rw [select_of_streams_single p i g hs] at h
    obtain rfl : i = index := by simpa using h
    exact ⟨g, by simp [hs]⟩
  · rw [select_of_streams_multi p a b t hs] at h
    obtain ⟨language, hm, _⟩ := findJpnLoop_ok_mem _ _ h
    exact ⟨language, hs ▸ hm⟩

/-- A dot-free name has no last-dot index. -/
theorem rfindDot_none : ∀ l : List Char, '.' ∉ l → rfindDot l = none := by
  intro l
  induction l with
  | nil => intro _; rfl
  | cons c cs ih =>
    intro h
    have hc : c ≠ '.' := fun hc => h (hc ▸ List.mem_cons_self ..)
    have hcs : '.' ∉ cs := fun hm => h (List.mem_cons_of_mem _ hm)
    simp [rfindDot, ih hcs, hc]

/-- When the extension after the last dot is dot-free, the last-dot index of
`S ++ "." ++ e` is the length of `S`. -/
theorem rfindDot_append : ∀ S e : List Char, '.' ∉ e →
    rfindDot (S ++ '.' :: e) = some S.length := by
  intro S e he
  induction S with
  | nil => simp [rfindDot, rfindDot_none e he]
  | cons c cs ih => simp [rfindDot, ih]

/-- The stem of a name with a proper dot-free extension drops exactly the
extension. -/
theorem pyStem_append_ext (S e : List Char) (hS : S ≠ []) (he : e ≠ [])
    (hd : '.' ∉ e) : pyStem (S ++ '.' :: e) = S := by
  have h₁ : rfindDot (S ++ '.' :: e) = some S.length := rfindDot_append S e hd
  have hSpos : 0 < S.length := List.length_pos.mpr hS
  have hepos : 0 < e.length := List.length_pos.mpr he
  have hlen : S.length < (S ++ '.' :: e).length - 1 := by
    simp only [List.length_append, List.length_cons]
    omega
  unfold pyStem
  rw [h₁]
  simp only [hSpos, hlen, and_self, if_true, true_and, if_pos]
  exact List.take_left S ('.' :: e)

/-- The suffix of a name with a proper dot-free extension is exactly the
extension. -/
theorem pySuffix_append_ext (S e : List Char) (hS : S ≠ []) (he : e ≠ [])
    (hd : '.' ∉ e) : pySuffix (S ++ '.' :: e) = '.' :: e := by
  have h₁ : rfindDot (S ++ '.' :: e) = some S.length := rfindDot_append S e hd
  have hSpos : 0 < S.length := List.length_pos.mpr hS
  have hepos : 0 < e.length := List.length_pos.mpr he
  have hlen : S.length < (S ++ '.' :: e).length - 1 := by
    simp only [List.length_append, List.length_cons]
    omega
  unfold pySuffix
  rw [h₁]
  simp only [hSpos, hlen, and_self, if_true, true_and, if_pos]
  exact List.drop_left S ('.' :: e)

/-! Claim theorems. -/

/-- C1: for every probe text whose parsed audio stream sequence has at least
two descriptors of which exactly one carries the language tag jpn compared
case-insensitively, `select_japanese_track` returns the index label of that
stream, regardless of its position in the sequence (the position is the
arbitrary split `l₁ ++ (index, language) :: l₂`). -/
theorem c1_unique_jpn_selected (p : String)
    (l₁ l₂ : List (List Char × List Char)) (index language : List Char)
    (hs : streams p = l₁ ++ (index, language) :: l₂)
    (hlen : 2 ≤ (streams p).length)
    (hj : pyLower language = jpnTag)
    (h₁ : ∀ x ∈ l₁, pyLower x.2 ≠ jpnTag)
    (h₂ : ∀ x ∈ l₂, pyLower x.2 ≠ jpnTag) :
    select_japanese_track p = .ok index := by
  rw [select_loop_of_len p hlen, hs, findJpnLoop_skip l₁ _ h₁,
    findJpnLoop_hit index language l₂ hj]

/-- C1 witness: from eng and jpn streams, the jpn stream at position two is
selected. -/
theorem c1_witness : select_japanese_track probeEngJpn = .ok ['0', ':', '2'] :=
  c1_unique_jpn_selected probeEngJpn [(['0', ':', '1'], ['e', 'n', 'g'])] []
    ['0', ':', '2'] ['j', 'p', 'n'] rfl (by decide) (by decide) (by decide)
    (by decide)

/-- C2: `select_japanese_track` fails with the exception exactly when the
probe text parses to zero audio stream descriptors, or to two or more audio
stream descriptors none of which is tagged jpn case-insensitively; in every
other case it returns an index label. -/
theorem c2_notfound_exactly (p : String) :
    (select_japanese_track p = .error JapaneseNotFoundException.mk ↔
      (streams p = [] ∨
        (2 ≤ (streams p).length ∧ ∀ x ∈ streams p, pyLower x.2 ≠ jpnTag))) ∧
    (¬(streams p = [] ∨
        (2 ≤ (streams p).length ∧ ∀ x ∈ streams p, pyLower x.2 ≠ jpnTag)) →
      ∃ index, select_japanese_track p = .ok index) := by
  have hiff : select_japanese_track p = .error JapaneseNotFoundException.mk ↔
      (streams p = [] ∨
        (2 ≤ (streams p).length ∧ ∀ x ∈ streams p, pyLower x.2 ≠ jpnTag)) := by
    rcases hs : streams p with _ | ⟨a, _ | ⟨b, t⟩⟩
    · simp [select_of_streams_nil p hs, hs]
    · obtain ⟨i, g⟩ := a
      rw [select_of_streams_single p i g hs]
      simp
    · rw [select_of_streams_multi p a b t hs, findJpnLoop_error_iff]
      simp only [List.length_cons]
      constructor
      · intro hall
        exact Or.inr ⟨by omega, hall⟩
      · rintro (habs | ⟨_, hall⟩)
        · exact absurd habs (by simp)
        · exact hall
  refine ⟨hiff, fun hnot => ?_⟩
  cases h : select_japanese_track p with
  | ok index => exact ⟨index, rfl⟩
  | error ex =>
    cases ex
    exact absurd (hiff.mp h) hnot

/-- C3 counterexample: the probe text `Stream #0:1: Audio: ...` contains
exactly one audio stream descriptor in the sense of the spec data model, and
it carries no language tag; the claim says selection returns its index label
`0:1`, but `select_japanese_track` raises the exception, because the pattern
`AUDIO_STREAM_RE` requires a parenthesised language tag and therefore parses
nothing from this text. -/
theorem c3_counterexample :
    specStreamDescriptors probeUntagged = [(['0', ':', '1'], none)] ∧
    select_japanese_track probeUntagged =
      .error JapaneseNotFoundException.mk :=
  ⟨rfl, rfl⟩

/-- C3 amended: for every probe text whose parsed audio stream sequence (the
matches of `AUDIO_STREAM_RE`, which all carry a language tag) consists of
exactly one descriptor, `select_japanese_track` returns that descriptor index
label unconditionally, whatever its language tag; a descriptor with no
language tag is not parsed at all, so a text whose only audio stream line is
untagged fails instead of being selected. -/
theorem c3_amended_single_parsed (p : String) (index language : List Char)
    (h : streams p = [(index, language)]) :
    select_japanese_track p = .ok index :=
  select_of_streams_single p index language h

/-- C3 amended witness: a lone eng-tagged stream is selected
unconditionally. -/
theorem c3_amended_witness :
    select_japanese_track probeOneEng = .ok ['0', ':', '1'] :=
  c3_amended_single_parsed probeOneEng ['0', ':', '1'] ['e', 'n', 'g'] rfl

/-- C4: for every probe text whose parsed audio stream sequence contains two
or more descriptors tagged jpn case-insensitively, `select_japanese_track`
returns the index label of the first such descriptor in document order (the
split exhibits the first jpn descriptor after a jpn-free block `l₁`, with a
further jpn descriptor in `l₂`). -/
theorem c4_first_jpn_of_many (p : String)
    (l₁ l₂ : List (List Char × List Char)) (index language : List Char)
    (hs : streams p = l₁ ++ (index, language) :: l₂)
    (hj : pyLower language = jpnTag)
    (h₁ : ∀ x ∈ l₁, pyLower x.2 ≠ jpnTag)
    (h₂ : ∃ x ∈ l₂, pyLower x.2 = jpnTag) :
    select_japanese_track p = .ok index := by
  have hne : l₂ ≠ [] := by
    rintro rfl
    simp at h₂
  have hlen : 2 ≤ (streams p).length := by
    rw [hs]
    simp only [List.length_append, List.length_cons]
    have := List.length_pos.mpr hne
    omega
  rw [select_loop_of_len p hlen, hs, findJpnLoop_skip l₁ _ h₁,
    findJpnLoop_hit index language l₂ hj]

/-- C4 witness: with jpn streams at positions one and two, the first is
selected. -/
theorem c4_witness : select_japanese_track probeTwoJpn = .ok ['0', ':', '1'] :=
  c4_first_jpn_of_many probeTwoJpn [] [(['0', ':', '2'], ['j', 'p', 'n'])]
    ['0', ':', '1'] ['j', 'p', 'n'] rfl (by decide) (by decide)
    ⟨(['0', ':', '2'], ['j', 'p', 'n']), by decide, by decide⟩

/-- C5 counterexample: the probe text `Stream #0:1: Audio\nStream
#0:2(eng): Audio` contains two audio stream descriptors in the sense of the
spec data model, one untagged and one tagged eng; no jpn tag exists anywhere,
yet selection succeeds and returns the eng stream label `0:2` (the untagged
line is invisible to `AUDIO_STREAM_RE`, so the implementation takes its
single-parsed-stream shortcut), refuting the clause that selection in the
multi-stream case requires an explicit jpn tag. -/
theorem c5_counterexample :
    specStreamDescriptors probeUntaggedEng =
      [(['0', ':', '1'], none), (['0', ':', '2'], some ['e', 'n', 'g'])] ∧
    select_japanese_track probeUntaggedEng = .ok ['0', ':', '2'] ∧
    pyLower ['e', 'n', 'g'] ≠ jpnTag :=
  ⟨rfl, rfl, by decide⟩

/-- C5 amended: a descriptor with no language tag is never parsed by
`AUDIO_STREAM_RE` and hence never selected, and whenever the parsed audio
stream sequence has at least two entries a successful selection returns the
index label of a parsed descriptor tagged jpn case-insensitively; but when
only one descriptor parses (for example because every other stream line is
untagged) the single-stream shortcut may return its label without any jpn
tag. -/
theorem c5_amended_multi_requires_jpn (p : String) (index : List Char)
    (hlen : 2 ≤ (streams p).length)
    (hok : select_japanese_track p = .ok index) :
    ∃ language, (index, language) ∈ streams p ∧ pyLower language = jpnTag := by
  rw [select_loop_of_len p hlen] at hok
  exact findJpnLoop_ok_mem _ _ hok

/-- C5 amended witness: with two parsed streams, the successful selection
returns a jpn-tagged member. -/
theorem c5_amended_witness :
    ∃ language, (['1', ':', '2'], language) ∈ streams probeEngJpn2 ∧
      pyLower language = jpnTag :=
  c5_amended_multi_requires_jpn probeEngJpn2 ['1', ':', '2'] (by decide) rfl

/-- C6: output path derivation is a pure function of the input path alone:
for an input path with stem `S`, any parent directory and any extension, the
computed output path is `S` plus `.mp3` in the same parent directory, and
whenever `extract_audio` builds a command, for any probe text whatsoever, the
command output path is that same path, independent of which track was
selected or whether selection succeeded. -/
theorem c6_output_path_pure (dir S e : List Char) (probe : String)
    (hS : S ≠ []) (he : e ≠ []) (hd : '.' ∉ e) :
    output_filename ⟨dir, S ++ '.' :: e⟩ = ⟨dir, S ++ ".mp3".data⟩ ∧
    ∀ notices cmd,
      extract_audio probe ⟨dir, S ++ '.' :: e⟩ = (notices, some cmd) →
      cmd.output = ⟨dir, S ++ ".mp3".data⟩ := by
  have hout : output_filename ⟨dir, S ++ '.' :: e⟩ = ⟨dir, S ++ ".mp3".data⟩ := by
    unfold output_filename
    rw [pyStem_append_ext S e hS he hd]
  refine ⟨hout, fun notices cmd h => ?_⟩
  unfold extract_audio at h
  cases hsel : select_japanese_track probe with
  | error ex =>
    rw [hsel] at h
    simp at h
  | ok track =>
    rw [hsel] at h
    simp only [Prod.mk.injEq, Option.some.injEq] at h
    obtain ⟨-, hcmd⟩ := h
    rw [← hcmd]
    exact hout

/-- C6 witness at the path `/v/a.mkv` and a probe with a jpn track. -/
theorem c6_witness :
    output_filename ⟨"/v".data, "a".data ++ '.' :: "mkv".data⟩ =
      ⟨"/v".data, "a".data ++ ".mp3".data⟩ ∧
    ∀ notices cmd,
      extract_audio probeEngJpn ⟨"/v".data, "a".data ++ '.' :: "mkv".data⟩ =
        (notices, some cmd) →
      cmd.output = ⟨"/v".data, "a".data ++ ".mp3".data⟩ :=
  c6_output_path_pure ("/v".data) ("a".data) ("mkv".data) probeEngJpn
    (by decide) (by decide) (by decide)

/-- C7: the batch filter keeps exactly the given immediate directory entries
that are regular files and whose extension, lowercased, is `.mkv` or `.mp4`;
every other entry is excluded. -/
theorem c7_filter_exactly (entries : List DirEntry) (e : DirEntry) :
    e ∈ video_files entries ↔
      e ∈ entries ∧ e.isFile = true ∧
        (pyLower (pySuffix e.name) = ".mkv".data ∨
          pyLower (pySuffix e.name) = ".mp4".data) := by
  unfold video_files
  rw [List.mem_filter]
  simp [VIDEO_EXTS]

/-- C8: when selection fails with the exception, the per-file task emits
exactly one human-readable skip notice, produces no ffmpeg command (hence no
output audio file), and returns normally, never propagating the failure to
the caller. -/
theorem c8_skip_on_notfound (probe : String) (video_file : VPath)
    (h : select_japanese_track probe = .error JapaneseNotFoundException.mk) :
    extract_audio probe video_file =
      (["No Japanese audio track found.".data], none) := by
  unfold extract_audio
  rw [h]

/-- C8 witness: a probe with two streams both tagged eng yields exactly the
one skip notice and no command. -/
theorem c8_witness :
    extract_audio probeTwoEng ⟨"/v".data, "b.mkv".data⟩ =
      (["No Japanese audio track found.".data], none) :=
  c8_skip_on_notfound probeTwoEng ⟨"/v".data, "b.mkv".data⟩ rfl

/-- C9: whenever selection succeeds, the returned index label is the label of
an audio stream descriptor actually parsed from the probe text: the substring
`Stream #<label>(<tag>): Audio` occurs in the input for the returned label.
The selector never fabricates or alters a label. -/
theorem c9_label_occurs_in_text (p : String) (index : List Char)
    (h : select_japanese_track p = .ok index) :
    ∃ language pre suf, (index, language) ∈ streams p ∧
      p.data = pre ++ streamLine index language ++ suf := by
  obtain ⟨language, hm⟩ := select_ok_mem p index h
  obtain ⟨pre, suf, hdec⟩ :=
    findAllAux_mem_decomp p.data.length p.data index language hm
  exact ⟨language, pre, suf, hm, hdec⟩

/-- C9 witness: the selected label `0:2` occurs in the probe text as a parsed
stream line. -/
theorem c9_witness :
    ∃ language pre suf,
      (['0', ':', '2'], language) ∈ streams probeJpnOnly ∧
      probeJpnOnly.data = pre ++ streamLine ['0', ':', '2'] language ++ suf :=
  c9_label_occurs_in_text probeJpnOnly ['0', ':', '2'] rfl

/-- C10: two distinct qualifying input files in the same directory with the
same stem and different video extensions derive equal output paths, so both
extraction tasks target the same output file. -/
theorem c10_same_stem_same_output (dir S e₁ e₂ : List Char)
    (hS : S ≠ []) (hne : e₁ ≠ e₂)
    (h₁ : e₁ ≠ []) (h₁d : '.' ∉ e₁) (h₂ : e₂ ≠ []) (h₂d : '.' ∉ e₂)
    (hq₁ : pyLower (pySuffix (S ++ '.' :: e₁)) ∈ VIDEO_EXTS)
    (hq₂ : pyLower (pySuffix (S ++ '.' :: e₂)) ∈ VIDEO_EXTS) :
    output_filename ⟨dir, S ++ '.' :: e₁⟩ = output_filename ⟨dir, S ++ '.' :: e₂⟩ := by
  unfold output_filename
  rw [pyStem_append_ext S e₁ hS h₁ h₁d, pyStem_append_ext S e₂ hS h₂ h₂d]

/-- C10 witness: `a.mkv` and `a.mp4` in the directory `/v` derive the same
output path. -/
theorem c10_witness :
    output_filename ⟨"/v".data, "a".data ++ '.' :: "mkv".data⟩ =
      output_filename ⟨"/v".data, "a".data ++ '.' :: "mp4".data⟩ :=
  c10_same_stem_same_output ("/v".data) ("a".data) ("mkv".data) ("mp4".data)
    (by decide) (by decide) (by decide) (by decide) (by decide) (by decide)
    (by decide) (by decide)

end ExtractFromFolder
